import Mathlib

/-!
Formal model of the Andronoma repository: the pipeline orchestration engine
(state store, idempotency resolver, scheduler, budget ledger, telemetry
aggregator, rate limiter) and the frontend data-transform utilities.

Frontend definitions are translated from
`frontend/src/hooks/useLatestRun.ts` and `frontend/src/lib/dataTransforms.ts`.
Data shapes for the orchestrator follow the SQL schema migration
(tables `pipeline_runs`, `stage_states`, `model_runs`, `stage_costs`,
`api_rate_limits` and the enums `run_status`, `stage_status`); the backend
operations themselves are not part of the repository snapshot and are
modelled from the specification where noted.
-/

namespace Andronoma

/-- Run status enumeration, from the SQL enum `run_status` and the
frontend `Run.status` union type. -/
inductive RunStatus where
  | pending
  | running
  | completed
  | failed
  | cancelled
deriving DecidableEq, Repr

/-- Stage status enumeration, from the SQL enum `stage_status` and the
frontend `StageStatus` union type. -/
inductive StageStatus where
  | pending
  | running
  | completed
  | failed
  | skipped
deriving DecidableEq, Repr

/-- Frontend `StageTelemetry` record (`lib/api.ts`); the opaque
`telemetry` JSON document is represented as a string. Timestamps are
epoch milliseconds (the value of `new Date(s).getTime()`). -/
structure StageTelemetry where
  name : String
  status : StageStatus
  started_at : Option Nat
  finished_at : Option Nat
  telemetry : String
  budget_spent : Nat
  notes : String
deriving DecidableEq, Repr

/-- Frontend `Run` record (`lib/api.ts`); opaque JSON fields are
represented as strings, timestamps as epoch milliseconds. -/
structure Run where
  id : String
  status : RunStatus
  input_payload : String
  budgets : List (String × Nat)
  telemetry : String
  created_at : Nat
  updated_at : Nat
  stages : List StageTelemetry
deriving DecidableEq, Repr

/-- The descending-recency order used by `selectLatestRun`'s comparator
`(a, b) => new Date(b.updated_at).getTime() - new Date(a.updated_at).getTime()`:
`a` sorts no later than `b` when `a` is at least as recently updated. -/
def moreRecent (a b : Run) : Prop := b.updated_at ≤ a.updated_at

instance : DecidableRel moreRecent := fun a b => Nat.decLe b.updated_at a.updated_at

instance : IsTotal Run moreRecent := ⟨fun a b => Nat.le_total b.updated_at a.updated_at⟩

instance : IsTrans Run moreRecent := ⟨fun _ _ _ h1 h2 => Nat.le_trans h2 h1⟩

/-- `selectLatestRun` from `hooks/useLatestRun.ts`: returns `null` on an
empty list, otherwise sorts a copy of the list by descending `updated_at`
and returns the first element.  JavaScript's `Array.prototype.sort` is a
stable comparison sort; it is modelled by the stable `insertionSort`. -/
def selectLatestRun (runs : List Run) : Option Run :=
  if runs.length = 0 then none
  else (List.insertionSort moreRecent runs).head?

/-! ### CSV parsing (`lib/dataTransforms.ts`) -/

/-- JavaScript whitespace recognised by `String.prototype.trim`
(restricted to the ASCII white-space characters). -/
def isJsSpace (c : Char) : Bool :=
  c = ' ' || c = '\t' || c = '\n' || c = '\r' || c = Char.ofNat 11 || c = Char.ofNat 12

/-- `value.trim()` on a character list: drop ASCII whitespace from both ends. -/
def jsTrim (cs : List Char) : List Char :=
  ((cs.dropWhile isJsSpace).reverse.dropWhile isJsSpace).reverse

/-- `text.replace(/\r\n/g, "\n")`: rewrite each (leftmost, non-overlapping)
CR LF pair to LF. -/
def normalizeCRLF : List Char → List Char
  | '\r' :: '\n' :: rest => '\n' :: normalizeCRLF rest
  | c :: rest => c :: normalizeCRLF rest
  | [] => []

/-- The character loop of `splitCsvLine`: `current` is the field being
accumulated, `inQuotes` the quoting state.  A quote inside a quoted field
followed by another quote emits one literal quote and skips both; any other
quote toggles the quoting state; an unquoted comma ends the current field. -/
def splitCsvAux (current : List Char) (inQuotes : Bool) (cs : List Char) :
    List (List Char) :=
  match cs with
  | [] => [current]
  | c :: rest =>
    if c = '"' then
      if inQuotes ∧ rest.head? = some '"' then
        splitCsvAux (current ++ ['"']) true rest.tail
      else
        splitCsvAux current (!inQuotes) rest
    else if c = ',' ∧ ¬inQuotes then
      current :: splitCsvAux [] false rest
    else
      splitCsvAux (current ++ [c]) inQuotes rest
termination_by cs.length
decreasing_by all_goals (simp [List.length_tail]; try omega)

/-- `splitCsvLine` (`dataTransforms.ts`), on character lists: run the
quote-aware loop, push the final field, then
`value.replace(/\r/g, "").trim()` each field. -/
def splitCsvLineChars (line : List Char) : List (List Char) :=
  (splitCsvAux [] false line).map (fun v => jsTrim (v.filter (fun c => !(c = '\r'))))

/-- `splitCsvLine` at the string level. -/
def splitCsvLine (line : String) : List String :=
  (splitCsvLineChars line.toList).map String.mk

/-- A `StringRecord` (`Record<string, string>`) as an insertion-ordered
association list, matching JavaScript object key semantics. -/
abbrev StringRecord : Type := List (String × String)

/-- `record[key] = value` on a JavaScript object: overwrite the (unique)
existing entry in place, append a new entry otherwise. -/
def jsSet (r : StringRecord) (k v : String) : StringRecord :=
  match r with
  | [] => [(k, v)]
  | p :: rest => if p.1 = k then (k, v) :: rest else p :: jsSet rest k v

/-- Property read `record[key]` on a JavaScript object. -/
def jsGet (r : StringRecord) (k : String) : Option String :=
  match r with
  | [] => none
  | p :: rest => if p.1 = k then some p.2 else jsGet rest k

/-- `Object.keys(record)`: keys in insertion order. -/
def recordKeys (r : StringRecord) : List String := r.map Prod.fst

/-- Keys of a JavaScript object built by inserting `hs` in order into an
object that already has keys `ks`: first occurrences are kept, repeats
collapse onto the existing slot. -/
def addKeys (ks : List String) (hs : List String) : List String :=
  hs.foldl (fun acc h => if acc.contains h then acc else acc ++ [h]) ks

/-- First-occurrence deduplication: the key order a JavaScript object ends
up with after inserting the list in order. -/
def firstDedup (hs : List String) : List String := addKeys [] hs

/-- The `headers.forEach((header, index) => { record[header] =
coerceString(cells[index] ?? ""); })` loop of `parseCsvRecords`;
`coerceString` is the identity on the strings produced here. -/
def buildRecordAux (rec : StringRecord) (i : Nat) (cells : List String) :
    List String → StringRecord
  | [] => rec
  | h :: rest => buildRecordAux (jsSet rec h (cells.getD i "")) (i + 1) cells rest

/-- Build one CSV data record from the header list and a row's cells. -/
def buildRecord (headers : List String) (cells : List String) : StringRecord :=
  buildRecordAux [] 0 cells headers

/-- The header row of `parseCsvRecords`: split the first line, then replace
an empty header at position `i` by `column_{i+1}`. -/
def headersOf (headerLine : List Char) : List String :=
  (splitCsvLineChars headerLine).enum.map
    (fun p => if p.2.isEmpty then "column_" ++ toString (p.1 + 1) else String.mk p.2)

/-- The non-empty lines of the trimmed, CRLF-normalised input
(`normalized.split("\n").filter((line) => line.length > 0)`). -/
def csvLines (csv : String) : List (List Char) :=
  ((normalizeCRLF (jsTrim csv.toList)).splitOn '\n').filter (fun l => l.length > 0)

/-- `parseCsvRecords` (`dataTransforms.ts`): empty result when the trimmed
input is empty or has no comma, or when fewer than two non-empty lines
remain; otherwise one record per data row, keyed by the header row. -/
def parseCsvRecords (csv : String) : List StringRecord :=
  let text := jsTrim csv.toList
  if text.isEmpty || !(text.contains ',') then []
  else
    let lines := csvLines csv
    if lines.length < 2 then []
    else
      let headers := headersOf (lines.headD [])
      (lines.drop 1).filterMap (fun line =>
        let cells := (splitCsvLineChars line).map String.mk
        if cells.length = 0 then none
        else some (buildRecord headers cells))

/-- `uniqueColumns` (`dataTransforms.ts`): scan the records in order and
each record's keys in order, collecting each unseen key once.  The `Set`
`seen` and the array `columns` are carried as a pair. -/
def uniqueColumns (records : List StringRecord) : List String :=
  (records.foldl
    (fun acc record =>
      (recordKeys record).foldl
        (fun acc2 key =>
          if acc2.1.contains key then acc2 else (acc2.1 ++ [key], acc2.2 ++ [key]))
        acc)
    (([], []) : List String × List String)).2

/-! ### Orchestrator data model and state store

Data shapes follow the SQL migration (`pipeline_runs`, `stage_states`);
the store operations are not in the repository snapshot and are modelled
from the specification (§4.1). -/

/-- The declared pipeline order
`scrape → process → audiences → creatives → images → qa → export`
(spec §2, `spec/` requirements documents). -/
def stagePipeline : List String :=
  ["scrape", "process", "audiences", "creatives", "images", "qa", "export"]

/-- A `stage_states` row: per-run stage status, timestamps, opaque
telemetry document, spent budget in minor currency units, notes. -/
structure StageState where
  name : String
  status : StageStatus
  startedAt : Option Nat
  finishedAt : Option Nat
  telemetry : String
  budgetSpent : Nat
  notes : String
deriving DecidableEq, Repr

/-- A `pipeline_runs` row together with its child stage rows. -/
structure PipelineRun where
  id : Nat
  ownerId : Nat
  status : RunStatus
  inputPayload : String
  budgets : List (String × Nat)
  stages : List StageState
deriving DecidableEq, Repr

/-- The durable state store: generated run identities plus the run rows. -/
structure StateStore where
  nextId : Nat
  runs : List PipelineRun
deriving DecidableEq, Repr

/-- A freshly seeded `pending` stage row. -/
def newStage (n : String) : StageState :=
  { name := n, status := .pending, startedAt := none, finishedAt := none,
    telemetry := "{}", budgetSpent := 0, notes := "" }

/-- Modelled from the spec: `create_run(owner, input, budgets) -> Run`
(spec §4.1; the State Store implementation is absent from the snapshot).
Seeds all declared stages as `pending` in pipeline order, atomically with
the run row; the run identity is freshly generated. -/
def create_run (s : StateStore) (owner : Nat) (input : String)
    (budgets : List (String × Nat)) : StateStore × PipelineRun :=
  let r : PipelineRun :=
    { id := s.nextId, ownerId := owner, status := .pending, inputPayload := input,
      budgets := budgets, stages := stagePipeline.map newStage }
  ({ nextId := s.nextId + 1, runs := s.runs ++ [r] }, r)

/-- The per-row compare-and-swap: a stage row is rewritten only when its
name matches and its current status equals `fromSt`. -/
def casStage (st : StageState) (stageName : String) (fromSt toSt : StageStatus)
    (payload : String) : StageState :=
  if st.name = stageName ∧ st.status = fromSt then
    { st with status := toSt, telemetry := payload }
  else st

/-- Modelled from the spec: `transition_stage(run_id, stage_name,
from_status, to_status, payload) -> bool` (spec §4.1; the State Store
implementation is absent from the snapshot).  Performs a compare-and-swap:
succeeds only if the stage's current status equals `from_status`, and
returns `false` with no mutation otherwise. -/
def transition_stage (s : StateStore) (runId : Nat) (stageName : String)
    (fromSt toSt : StageStatus) (payload : String) : StateStore × Bool :=
  let ok := s.runs.any (fun r =>
    decide (r.id = runId) &&
      r.stages.any (fun st => decide (st.name = stageName ∧ st.status = fromSt)))
  if ok then
    ({ s with runs := s.runs.map (fun r =>
        if r.id = runId then
          { r with stages := r.stages.map (fun st => casStage st stageName fromSt toSt payload) }
        else r) }, true)
  else (s, false)

/-! ### Idempotency resolver (spec §4.2) -/

/-- Status of one attempt under an idempotency key. -/
inductive AttemptStatus where
  | running
  | completed
  | failed
deriving DecidableEq, Repr

/-- One attempt recorded under an idempotency key, with the internal
attempt counter and the cached result of a completed execution. -/
structure Attempt where
  key : String
  counter : Nat
  status : AttemptStatus
  result : String
deriving DecidableEq, Repr

/-- The resolver's attempt log, most recent attempt first. -/
structure IdemStore where
  attempts : List Attempt
deriving DecidableEq, Repr

/-- The idempotency key `{run_id}:{stage_name}:{run_tag}` (spec §4.2). -/
def mkIdemKey (runId : Nat) (stageName runTag : String) : String :=
  toString runId ++ ":" ++ stageName ++ ":" ++ runTag

/-- Outcome of asking the resolver to dispatch a key: a fresh execution
is started (the only side-effecting case), a cached completed result is
reused, or the dispatch is rejected as an `IdempotencyConflict`. -/
inductive DispatchOutcome where
  | started (counter : Nat)
  | skippedCached (result : String)
  | conflict
deriving DecidableEq, Repr

/-- The key's current (most recent) attempt. -/
def latestAttempt (st : IdemStore) (key : String) : Option Attempt :=
  st.attempts.find? (fun a => decide (a.key = key))

/-- Modelled from the spec: the resolver's pre-dispatch lookup (spec §4.2;
the Idempotency Resolver implementation is absent from the snapshot).
A `completed` attempt short-circuits to the cached result, a `running`
attempt is a conflict, a `failed` attempt admits a new attempt under the
same key with an incremented counter, and an unknown key starts attempt 0. -/
def dispatch (st : IdemStore) (key : String) : DispatchOutcome × IdemStore :=
  match latestAttempt st key with
  | some a =>
    match a.status with
    | .completed => (.skippedCached a.result, st)
    | .running => (.conflict, st)
    | .failed =>
      (.started (a.counter + 1),
       { attempts := { key := key, counter := a.counter + 1, status := .running, result := "" } :: st.attempts })
  | none =>
    (.started 0,
     { attempts := { key := key, counter := 0, status := .running, result := "" } :: st.attempts })

/-- Record the terminal success of the key's running attempt, caching its
result for later dispatches. -/
def completeAttempt (st : IdemStore) (key : String) (result : String) : IdemStore :=
  { attempts := st.attempts.map (fun a =>
      if a.key = key ∧ a.status = .running then
        { a with status := .completed, result := result }
      else a) }

/-! ### Stage scheduler state machine (spec §4.3, §4.4, §7) -/

/-- Scheduler view of one stage of a run: declared name, status, and the
number of attempts started so far (retries are bounded by `maxAttempts`). -/
structure SchedStage where
  name : String
  status : StageStatus
  attempts : Nat
deriving DecidableEq, Repr

/-- Scheduler view of one run: the run status and its stages in declared
pipeline order. -/
structure Sched where
  runStatus : RunStatus
  stages : List SchedStage
deriving DecidableEq, Repr

/-- Transient failures are retried up to 3 attempts (spec §4.4). -/
def maxAttempts : Nat := 3

/-- A freshly created run: all declared stages seeded `pending`. -/
def initSched : Sched :=
  { runStatus := .pending,
    stages := stagePipeline.map (fun n => { name := n, status := .pending, attempts := 0 }) }

/-- Events driving one run's scheduling: a worker claims stage `i`; the
executor reports success; the supervisor reports a transient failure
(timeout, provider error — retryable); or a fatal failure
(`BudgetExceeded`, non-transient executor failure — never retried). -/
inductive SchedEvent where
  | dispatch (i : Nat)
  | stageCompleted (i : Nat)
  | stageFailedTransient (i : Nat)
  | stageFailedFatal (i : Nat)
deriving DecidableEq, Repr

/-- Status of stage `i`, when it exists. -/
def stageStatusAt (s : Sched) (i : Nat) : Option StageStatus :=
  (s.stages.get? i).map SchedStage.status

/-- The scheduler may claim stage `i` only for an active run, only when the
stage is `pending`, and only when the immediately preceding declared stage
is `completed` (spec §4.3). -/
def canDispatch (s : Sched) (i : Nat) : Bool :=
  decide (s.runStatus = .pending ∨ s.runStatus = .running) &&
  decide (stageStatusAt s i = some .pending) &&
  decide (i = 0 ∨ stageStatusAt s (i - 1) = some .completed)

/-- Rewrite the list element at position `i` in place. -/
def setStageList (f : SchedStage → SchedStage) : Nat → List SchedStage → List SchedStage
  | _, [] => []
  | 0, st :: rest => f st :: rest
  | n + 1, st :: rest => st :: setStageList f n rest

/-- Rewrite stage `i` in place. -/
def setStage (s : Sched) (i : Nat) (f : SchedStage → SchedStage) : Sched :=
  { s with stages := setStageList f i s.stages }

/-- Every declared stage has reached `completed`. -/
def allCompleted (s : Sched) : Bool :=
  s.stages.all (fun st => decide (st.status = .completed))

/-- Modelled from the spec: one transition of the per-run scheduling state
machine (spec §4.3, §4.4, §7; the Stage Scheduler implementation is absent
from the snapshot).  Returns the successor state and whether the event was
accepted; a rejected event leaves the state unchanged.
A claim moves a `pending` stage to `running` (counting one attempt) and the
run to `running`; success moves the stage to `completed` (and the run once
every stage is); a transient failure is retried while attempts remain and
otherwise fails the stage and the run; a fatal failure
(`BudgetExceeded`, non-transient executor error) fails both at once. -/
def schedStep (s : Sched) (e : SchedEvent) : Sched × Bool :=
  match e with
  | .dispatch i =>
    if canDispatch s i then
      ({ setStage s i (fun st => { st with status := .running, attempts := st.attempts + 1 }) with
          runStatus := .running }, true)
    else (s, false)
  | .stageCompleted i =>
    match s.stages.get? i with
    | some st =>
      if st.status = .running then
        let s1 := setStage s i (fun t => { t with status := .completed })
        ({ s1 with runStatus := if allCompleted s1 then .completed else s1.runStatus }, true)
      else (s, false)
    | none => (s, false)
  | .stageFailedTransient i =>
    match s.stages.get? i with
    | some st =>
      if st.status = .running then
        if st.attempts < maxAttempts then
          (setStage s i (fun t => { t with status := .pending }), true)
        else
          ({ setStage s i (fun t => { t with status := .failed }) with runStatus := .failed }, true)
      else (s, false)
    | none => (s, false)
  | .stageFailedFatal i =>
    match s.stages.get? i with
    | some st =>
      if st.status = .running then
        ({ setStage s i (fun t => { t with status := .failed }) with runStatus := .failed }, true)
      else (s, false)
    | none => (s, false)

/-- Run the scheduler over a whole event trace. -/
def runTrace (s : Sched) (es : List SchedEvent) : Sched :=
  es.foldl (fun t e => (schedStep t e).1) s

/-! ### Telemetry aggregator (spec §4.6; `model_runs` and `stage_costs`) -/

/-- A `model_runs` row: one immutable billable invocation record. -/
structure Invocation where
  id : Nat
  runId : Nat
  stage : String
  promptHash : String
  inputTokens : Nat
  outputTokens : Nat
  costCents : Nat
deriving DecidableEq, Repr

/-- A `stage_costs` row: the materialized per-(run, stage) aggregate. -/
structure StageCostRow where
  runId : Nat
  stage : String
  totalCostCents : Nat
  tokensInput : Nat
  tokensOutput : Nat
deriving DecidableEq, Repr

/-- The aggregator's state: the append-only invocation log and the
materialized summaries. -/
structure Telemetry where
  modelRuns : List Invocation
  stageCosts : List StageCostRow
deriving DecidableEq, Repr

/-- The empty aggregator state. -/
def emptyTelemetry : Telemetry := { modelRuns := [], stageCosts := [] }

/-- Fold one invocation into a summary row. -/
def bumpRow (row : StageCostRow) (inv : Invocation) : StageCostRow :=
  { row with
      totalCostCents := row.totalCostCents + inv.costCents,
      tokensInput := row.tokensInput + inv.inputTokens,
      tokensOutput := row.tokensOutput + inv.outputTokens }

/-- The fresh summary row created by an invocation's first posting. -/
def newRow (inv : Invocation) : StageCostRow :=
  { runId := inv.runId, stage := inv.stage, totalCostCents := inv.costCents,
    tokensInput := inv.inputTokens, tokensOutput := inv.outputTokens }

/-- Upsert the (runId, stage) summary row for an invocation: add into the
first matching row, or append a fresh row when none exists. -/
def addToRows (inv : Invocation) : List StageCostRow → List StageCostRow
  | [] => [newRow inv]
  | row :: rest =>
    if row.runId = inv.runId ∧ row.stage = inv.stage then bumpRow row inv :: rest
    else row :: addToRows inv rest

/-- Modelled from the spec: record one billable invocation (spec §4.6; the
Telemetry Aggregator implementation is absent from the snapshot).
Aggregation is idempotent by invocation identity: a record whose id is
already present is dropped; otherwise the record is appended to the log and
reconciled into the summary in the same step. -/
def recordInvocation (t : Telemetry) (inv : Invocation) : Telemetry :=
  if t.modelRuns.any (fun i => decide (i.id = inv.id)) then t
  else
    { modelRuns := inv :: t.modelRuns,
      stageCosts := addToRows inv t.stageCosts }

/-- The invocation entries recorded for one (run, stage). -/
def invocationsFor (t : Telemetry) (runId : Nat) (stage : String) : List Invocation :=
  t.modelRuns.filter (fun i => decide (i.runId = runId ∧ i.stage = stage))

/-- Total cost over the (run, stage) summary rows. -/
def summaryCost (t : Telemetry) (runId : Nat) (stage : String) : Nat :=
  ((t.stageCosts.filter (fun row => decide (row.runId = runId ∧ row.stage = stage))).map
    StageCostRow.totalCostCents).sum

/-- Total input-token count over the (run, stage) summary rows. -/
def summaryTokensIn (t : Telemetry) (runId : Nat) (stage : String) : Nat :=
  ((t.stageCosts.filter (fun row => decide (row.runId = runId ∧ row.stage = stage))).map
    StageCostRow.tokensInput).sum

/-- Total output-token count over the (run, stage) summary rows. -/
def summaryTokensOut (t : Telemetry) (runId : Nat) (stage : String) : Nat :=
  ((t.stageCosts.filter (fun row => decide (row.runId = runId ∧ row.stage = stage))).map
    StageCostRow.tokensOutput).sum

/-! ### Budget ledger (spec §4.5) -/

/-- Modelled from the spec: the ledger's admission check (spec §4.5; the
Budget Ledger implementation is absent from the snapshot).  A pending
sub-operation of estimated cost `estimate` is admitted unless the projected
cumulative spend exceeds the ceiling by more than a 5% margin; all amounts
are minor currency units, so the 5% margin is the exact integer comparison
`100 * (total + estimate) ≤ 105 * ceiling`. -/
def admitOperation (ceiling total estimate : Nat) : Bool :=
  decide (100 * (total + estimate) ≤ 105 * ceiling)

/-- A stage as the budget ledger sees it: ceiling and posted spend in minor
currency units, plus the stage status and failure reason it controls. -/
structure StageBudget where
  ceilingCents : Nat
  spentCents : Nat
  status : StageStatus
  failReason : Option String
deriving DecidableEq, Repr

/-- Modelled from the spec: post an actual cost to a stage (spec §4.5; the
Budget Ledger implementation is absent from the snapshot).  The posting is
always accumulated (spend is monotone), and a cumulative spend beyond the
ceiling marks the stage `failed` with reason `BudgetExceeded` even if the
operation was admitted optimistically. -/
def postCost (sb : StageBudget) (cost : Nat) : StageBudget :=
  let spent := sb.spentCents + cost
  if sb.ceilingCents < spent then
    { sb with spentCents := spent, status := .failed, failReason := some "BudgetExceeded" }
  else
    { sb with spentCents := spent }

/-! ### Rate limiter (spec §4.7; `api_rate_limits`) -/

/-- An `api_rate_limits` row: fixed-window counter per caller key. -/
structure RateWindow where
  apiKey : String
  windowStart : Nat
  windowEnd : Nat
  requestCount : Nat
deriving DecidableEq, Repr

/-- The rate limiter's persistent state. -/
structure RateState where
  windows : List RateWindow
deriving DecidableEq, Repr

/-- Default ceiling: 60 requests per window (spec §4.7). -/
def rateCeiling : Nat := 60

/-- Look up the row for (caller key, window start, window end). -/
def findWindow (key : String) (wStart wEnd : Nat) : List RateWindow → Option RateWindow
  | [] => none
  | w :: ws =>
    if w.apiKey = key ∧ w.windowStart = wStart ∧ w.windowEnd = wEnd then some w
    else findWindow key wStart wEnd ws

/-- Increment the counter of the first matching window row in place. -/
def bumpWindow (key : String) (wStart wEnd : Nat) : List RateWindow → List RateWindow
  | [] => []
  | w :: ws =>
    if w.apiKey = key ∧ w.windowStart = wStart ∧ w.windowEnd = wEnd then
      { w with requestCount := w.requestCount + 1 } :: ws
    else w :: bumpWindow key wStart wEnd ws

/-- Modelled from the spec: one rate-limited request (spec §4.7; the Rate
Limiter implementation is absent from the snapshot).  Look up (or lazily
create) the current window row, atomically increment its counter, and
reject exactly when the incremented counter exceeds the ceiling. -/
def request (st : RateState) (key : String) (wStart wEnd ceiling : Nat) :
    RateState × Bool :=
  match findWindow key wStart wEnd st.windows with
  | some w =>
    ({ windows := bumpWindow key wStart wEnd st.windows },
     decide (w.requestCount + 1 ≤ ceiling))
  | none =>
    ({ windows := { apiKey := key, windowStart := wStart, windowEnd := wEnd,
                    requestCount := 1 } :: st.windows },
     decide (1 ≤ ceiling))

/-- The counter currently recorded for a (key, window) pair, `0` when the
row does not exist yet. -/
def windowCount (st : RateState) (key : String) (wStart wEnd : Nat) : Nat :=
  match findWindow key wStart wEnd st.windows with
  | some w => w.requestCount
  | none => 0

/-- The rate state after `n` requests for the same key and window against
the given ceiling, starting from an empty limiter. -/
def requestN (key : String) (wStart wEnd ceiling : Nat) : Nat → RateState
  | 0 => { windows := [] }
  | n + 1 => (request (requestN key wStart wEnd ceiling n) key wStart wEnd ceiling).1

/-- The orchestrator's combined persistent state: run/stage rows and the
rate limiter's window rows are disjoint components. -/
structure OrchestratorState where
  store : StateStore
  rate : RateState
deriving DecidableEq, Repr

/-- The transport layer's rate-limit check: consults and updates only the
rate limiter component, never the run/stage rows. -/
def rateLimitCheck (sys : OrchestratorState) (key : String)
    (wStart wEnd ceiling : Nat) : OrchestratorState × Bool :=
  let p := request sys.rate key wStart wEnd ceiling
  ({ sys with rate := p.1 }, p.2)

/-! ### Store-level operation traces (for the uniqueness invariants) -/

/-- The operations that touch run/stage rows. -/
inductive StoreOp where
  | createRun (owner : Nat) (input : String) (budgets : List (String × Nat))
  | transition (runId : Nat) (stageName : String) (fromSt toSt : StageStatus)
      (payload : String)
deriving DecidableEq, Repr

/-- Apply one store operation. -/
def applyStoreOp (s : StateStore) : StoreOp → StateStore
  | .createRun o i b => (create_run s o i b).1
  | .transition rid sn f t p => (transition_stage s rid sn f t p).1

/-- The empty store. -/
def emptyStore : StateStore := { nextId := 0, runs := [] }

/-- The store after a sequence of operations from the empty store. -/
def applyStoreOps (ops : List StoreOp) : StateStore :=
  ops.foldl applyStoreOp emptyStore

/-- The rate state reached from the empty limiter by a sequence of
requests `(key, window start, window end, ceiling)`. -/
def applyRateOps (ops : List (String × Nat × Nat × Nat)) : RateState :=
  ops.foldl (fun st p => (request st p.1 p.2.1 p.2.2.1 p.2.2.2).1) { windows := [] }

/-- The failure side condition maintained by every scheduler transition: a
run is marked `failed` only while some stage of it is `failed`. -/
def failedInv (s : Sched) : Prop :=
  s.runStatus = .failed → ∃ st ∈ s.stages, st.status = .failed

/-- The reconciliation invariant of the telemetry aggregator: every
(run, stage) summary equals the sums over that stage's invocation entries,
and there is at most one summary row per (run, stage). -/
def telemetryConsistent (t : Telemetry) : Prop :=
  (∀ runId stage,
    summaryCost t runId stage =
      ((invocationsFor t runId stage).map Invocation.costCents).sum ∧
    summaryTokensIn t runId stage =
      ((invocationsFor t runId stage).map Invocation.inputTokens).sum ∧
    summaryTokensOut t runId stage =
      ((invocationsFor t runId stage).map Invocation.outputTokens).sum) ∧
  (t.stageCosts.map (fun r => (r.runId, r.stage))).Nodup

/-- The uniqueness invariant of the state store: run identities are unique
(and below the generator), and within every run the pair (run, stage name)
identifies at most one stage row. -/
def storeInv (s : StateStore) : Prop :=
  (∀ r ∈ s.runs, r.id < s.nextId) ∧
  (s.runs.map (fun r => r.id)).Nodup ∧
  (∀ r ∈ s.runs, (r.stages.map (fun st => st.name)).Nodup)

/-- The uniqueness invariant of the rate limiter: the triple
(caller key, window start, window end) identifies at most one window row. -/
def rateInv (st : RateState) : Prop :=
  (st.windows.map (fun w => (w.apiKey, w.windowStart, w.windowEnd))).Nodup

/-- A concrete store with one run whose scrape stage is `completed`, used
to instantiate theorems on concrete inputs. -/
def demoStore : StateStore :=
  { nextId := 2,
    runs := [{ id := 1, ownerId := 7, status := .running, inputPayload := "{}",
               budgets := [("scrape", 50)],
               stages := [{ name := "scrape", status := .completed, startedAt := some 0,
                            finishedAt := some 1, telemetry := "{}", budgetSpent := 10,
                            notes := "" }] }] }

/-- Two concrete runs used to instantiate theorems on concrete inputs. -/
def sampleRunOld : Run :=
  { id := "run-old", status := .completed, input_payload := "{}", budgets := [],
    telemetry := "{}", created_at := 0, updated_at := 5, stages := [] }

/-- A more recently updated concrete run. -/
def sampleRunNew : Run :=
  { id := "run-new", status := .running, input_payload := "{}", budgets := [],
    telemetry := "{}", created_at := 1, updated_at := 9, stages := [] }

/-! ## Theorems -/

/-- **C8.** For every list of runs, `selectLatestRun` returns `null` exactly
when the list is empty, and otherwise returns an element of the list whose
`updated_at` timestamp is at least the `updated_at` of every other element.
(The embedding is a pure function of the input list, matching the source's
sort of a `slice()` copy: the argument is never mutated.) -/
theorem C8_selectLatestRun_max (runs : List Run) :
    (selectLatestRun runs = none ↔ runs = []) ∧
    (∀ r, selectLatestRun runs = some r →
      r ∈ runs ∧ ∀ x ∈ runs, x.updated_at ≤ r.updated_at) := by
  constructor
  · cases runs with
    | nil => simp [selectLatestRun]
    | cons a as =>
      simp only [selectLatestRun, List.length_cons]
      rw [if_neg (by omega)]
      constructor
      · intro h
        have hnil := List.head?_eq_none_iff.mp h
        have hlen := (List.perm_insertionSort moreRecent (a :: as)).length_eq
        rw [hnil] at hlen
        simp at hlen
      · intro h
        exact absurd h (by simp)
  · intro r hr
    cases runs with
    | nil => simp [selectLatestRun] at hr
    | cons a as =>
      rw [selectLatestRun, if_neg (by simp)] at hr
      have hperm := List.perm_insertionSort moreRecent (a :: as)
      have hsorted := List.sorted_insertionSort moreRecent (a :: as)
      cases hs : List.insertionSort moreRecent (a :: as) with
      | nil =>
        rw [hs] at hr
        simp at hr
      | cons b t =>
        rw [hs] at hr
        simp only [List.head?_cons, Option.some.injEq] at hr
        subst hr
        rw [hs] at hperm hsorted
        refine ⟨hperm.mem_iff.mp (List.mem_cons_self b t), ?_⟩
        intro x hx
        rcases List.mem_cons.mp (hperm.mem_iff.mpr hx) with h | h
        · subst h; exact Nat.le_refl _
        · exact List.rel_of_sorted_cons hsorted x h

/-- Witness for C8 at concrete inputs: the empty list yields `none`, and on
a two-run list the theorem picks a run that is a maximal element. -/
theorem C8_selectLatestRun_max_witness :
    selectLatestRun [] = none ∧
    sampleRunNew ∈ [sampleRunOld, sampleRunNew] ∧
    ∀ x ∈ [sampleRunOld, sampleRunNew], x.updated_at ≤ sampleRunNew.updated_at := by
  have h := (C8_selectLatestRun_max [sampleRunOld, sampleRunNew]).2 sampleRunNew (by decide)
  exact ⟨(C8_selectLatestRun_max []).1.mpr rfl, h.1, h.2⟩

/-! ### Key-accumulation lemmas shared by the record and column theorems -/

theorem addKeys_nil (ks : List String) : addKeys ks [] = ks := rfl

theorem addKeys_cons (ks : List String) (h : String) (hs : List String) :
    addKeys ks (h :: hs) = addKeys (if ks.contains h then ks else ks ++ [h]) hs := by
  simp only [addKeys, List.foldl_cons]

theorem addKeys_append (ks hs1 hs2 : List String) :
    addKeys ks (hs1 ++ hs2) = addKeys (addKeys ks hs1) hs2 := by
  simp [addKeys, List.foldl_append]

theorem contains_iff_mem_str {α : Type} [BEq α] [LawfulBEq α] (ks : List α) (h : α) :
    ks.contains h = true ↔ h ∈ ks := by
  simp [List.contains, List.elem_iff]

theorem mem_addKeys (ks hs : List String) (x : String) :
    x ∈ addKeys ks hs ↔ x ∈ ks ∨ x ∈ hs := by
  induction hs generalizing ks with
  | nil => simp [addKeys_nil]
  | cons h rest ih =>
    rw [addKeys_cons]
    by_cases hc : ks.contains h = true
    · rw [if_pos hc, ih]
      have hm := (contains_iff_mem_str ks h).mp hc
      constructor
      · rintro (hx | hx)
        · exact Or.inl hx
        · exact Or.inr (List.mem_cons_of_mem h hx)
      · rintro (hx | hx)
        · exact Or.inl hx
        · rcases List.mem_cons.mp hx with rfl | hx
          · exact Or.inl hm
          · exact Or.inr hx
    · rw [if_neg hc, ih]
      simp only [List.mem_append, List.mem_singleton, List.mem_cons]
      tauto

theorem nodup_addKeys (ks hs : List String) (hks : ks.Nodup) :
    (addKeys ks hs).Nodup := by
  induction hs generalizing ks with
  | nil => exact hks
  | cons h rest ih =>
    rw [addKeys_cons]
    by_cases hc : ks.contains h = true
    · rw [if_pos hc]; exact ih ks hks
    · rw [if_neg hc]
      refine ih _ ?_
      have hm : h ∉ ks := fun hmem => hc ((contains_iff_mem_str ks h).mpr hmem)
      simp [List.nodup_append, hks, hm]

theorem addKeys_of_disjoint (ks hs : List String) (hnd : hs.Nodup)
    (hdis : ∀ x ∈ hs, x ∉ ks) : addKeys ks hs = ks ++ hs := by
  induction hs generalizing ks with
  | nil => simp [addKeys_nil]
  | cons h rest ih =>
    rw [addKeys_cons]
    have hc : ks.contains h ≠ true := fun hc =>
      hdis h (List.mem_cons_self h rest) ((contains_iff_mem_str ks h).mp hc)
    rw [if_neg hc]
    rw [ih (ks ++ [h]) (List.Nodup.of_cons hnd) ?_]
    · simp
    · intro x hx
      simp only [List.mem_append, List.mem_singleton]
      rintro (hxk | rfl)
      · exact hdis x (List.mem_cons_of_mem h hx) hxk
      · exact (List.nodup_cons.mp hnd).1 hx

theorem firstDedup_of_nodup (hs : List String) (hnd : hs.Nodup) :
    firstDedup hs = hs := by
  rw [firstDedup, addKeys_of_disjoint [] hs hnd (by intro x hx; simp)]
  simp

/-- The inner `for key of Object.keys(record)` loop of `uniqueColumns`
keeps `seen` and `columns` identical and accumulates first occurrences. -/
theorem uniqueColumns_inner (hs : List String) (ks : List String) :
    hs.foldl
      (fun acc2 key =>
        if acc2.1.contains key then acc2 else (acc2.1 ++ [key], acc2.2 ++ [key]))
      (ks, ks) = (addKeys ks hs, addKeys ks hs) := by
  induction hs generalizing ks with
  | nil => simp [addKeys_nil]
  | cons h rest ih =>
    rw [List.foldl_cons, addKeys_cons]
    by_cases hc : ks.contains h = true
    · simp only [hc, if_true]
      exact ih ks
    · simp only [hc, if_false]
      exact ih (ks ++ [h])

/-- The outer loop of `uniqueColumns` accumulates the first occurrence of
every key over the flattened key sequence. -/
theorem uniqueColumns_outer (records : List StringRecord) (ks : List String) :
    records.foldl
      (fun acc record =>
        (recordKeys record).foldl
          (fun acc2 key =>
            if acc2.1.contains key then acc2 else (acc2.1 ++ [key], acc2.2 ++ [key]))
          acc)
      (ks, ks) =
    (addKeys ks (records.flatMap recordKeys), addKeys ks (records.flatMap recordKeys)) := by
  induction records generalizing ks with
  | nil => simp [addKeys_nil]
  | cons r rest ih =>
    rw [List.foldl_cons, uniqueColumns_inner, List.flatMap_cons, addKeys_append]
    exact ih (addKeys ks (recordKeys r))

theorem uniqueColumns_eq_firstDedup (records : List StringRecord) :
    uniqueColumns records = firstDedup (records.flatMap recordKeys) := by
  rw [uniqueColumns, firstDedup]
  rw [show (([], []) : List String × List String) = (([] : List String), ([] : List String)) from rfl]
  rw [uniqueColumns_outer records []]

/-- **C10.** `uniqueColumns` returns each key occurring in any record
exactly once, nothing else, ordered by first appearance (scanning records
in order and each record's keys in order); applying it to a record built
from its own output returns the same column list, so it is idempotent with
respect to the set of keys. -/
theorem C10_uniqueColumns_firstDedup (records : List StringRecord) :
    uniqueColumns records = firstDedup (records.flatMap recordKeys) ∧
    (uniqueColumns records).Nodup ∧
    (∀ k, k ∈ uniqueColumns records ↔ ∃ r ∈ records, k ∈ recordKeys r) ∧
    uniqueColumns [(uniqueColumns records).map (fun k => (k, ""))] =
      uniqueColumns records := by
  have heq := uniqueColumns_eq_firstDedup records
  have hnd : (uniqueColumns records).Nodup := by
    rw [heq, firstDedup]; exact nodup_addKeys [] _ List.nodup_nil
  refine ⟨heq, hnd, ?_, ?_⟩
  · intro k
    rw [heq, firstDedup, mem_addKeys]
    simp [List.mem_flatMap]
  · rw [uniqueColumns_eq_firstDedup [((uniqueColumns records).map (fun k => (k, "")))]]
    have : recordKeys ((uniqueColumns records).map (fun k => (k, ""))) =
        uniqueColumns records := by
      simp only [recordKeys, List.map_map]
      exact show List.map id (uniqueColumns records) = uniqueColumns records from
        List.map_id (uniqueColumns records)
    simp only [List.flatMap_cons, List.flatMap_nil, List.append_nil, this]
    exact firstDedup_of_nodup _ hnd

/-! ### Stepping lemmas for the CSV field loop -/

theorem splitCsvAux_nil (cur : List Char) (q : Bool) : splitCsvAux cur q [] = [cur] := by
  rw [splitCsvAux]

theorem splitCsvAux_open (cur : List Char) (rest : List Char) :
    splitCsvAux cur false ('"' :: rest) = splitCsvAux cur true rest := by
  rw [splitCsvAux]
  simp

theorem splitCsvAux_escaped (cur : List Char) (rest : List Char) :
    splitCsvAux cur true ('"' :: '"' :: rest) = splitCsvAux (cur ++ ['"']) true rest := by
  rw [splitCsvAux]
  simp

theorem splitCsvAux_close (cur : List Char) (rest : List Char)
    (h : rest.head? ≠ some '"') :
    splitCsvAux cur true ('"' :: rest) = splitCsvAux cur false rest := by
  rw [splitCsvAux]
  simp [h]

theorem splitCsvAux_quoted_char (cur : List Char) (c : Char) (rest : List Char)
    (hc : c ≠ '"') :
    splitCsvAux cur true (c :: rest) = splitCsvAux (cur ++ [c]) true rest := by
  rw [splitCsvAux]
  simp [hc]

/-- Scanning quoted field content: every character before the closing quote
is appended verbatim, commas included. -/
theorem splitCsvAux_scan (f : List Char) (hf : '"' ∉ f) (cur rest : List Char) :
    splitCsvAux cur true (f ++ rest) = splitCsvAux (cur ++ f) true rest := by
  induction f generalizing cur with
  | nil => simp
  | cons c f' ih =>
    have hc : c ≠ '"' := fun h => hf (h ▸ List.mem_cons_self c f')
    rw [List.cons_append, splitCsvAux_quoted_char cur c (f' ++ rest) hc,
      ih (fun h => hf (List.mem_cons_of_mem c h)) (cur ++ [c])]
    simp

/-! ### JavaScript-object lemmas for CSV records -/

theorem recordKeys_jsSet (r : StringRecord) (k v : String) :
    recordKeys (jsSet r k v) =
      if k ∈ recordKeys r then recordKeys r else recordKeys r ++ [k] := by
  induction r with
  | nil => simp [jsSet, recordKeys]
  | cons p rest ih =>
    by_cases hp : p.1 = k
    · simp [jsSet, recordKeys, hp]
    · simp only [jsSet, if_neg hp, recordKeys, List.map_cons]
      rw [recordKeys] at ih
      rw [ih]
      by_cases hm : k ∈ rest.map Prod.fst
      · simp [recordKeys, hm]
      · have hnm : ¬(k ∈ p.1 :: rest.map Prod.fst) := by
          simp only [List.mem_cons, not_or]
          exact ⟨fun h => hp h.symm, hm⟩
        simp [recordKeys, hm, hnm]

/-- `addKeys` stepping with a propositional membership test. -/
theorem addKeys_cons_mem (ks : List String) (h : String) (hs : List String) :
    addKeys ks (h :: hs) = addKeys (if h ∈ ks then ks else ks ++ [h]) hs := by
  rw [addKeys_cons]
  by_cases hm : h ∈ ks
  · rw [if_pos ((contains_iff_mem_str ks h).mpr hm), if_pos hm]
  · rw [if_neg (fun hc => hm ((contains_iff_mem_str ks h).mp hc)), if_neg hm]

theorem jsGet_jsSet_self (r : StringRecord) (k v : String) :
    jsGet (jsSet r k v) k = some v := by
  induction r with
  | nil => simp [jsSet, jsGet]
  | cons p rest ih =>
    by_cases hp : p.1 = k
    · simp [jsSet, jsGet, hp]
    · simp [jsSet, jsGet, hp, ih]

theorem jsGet_jsSet_other (r : StringRecord) (k v k' : String) (hkk : k' ≠ k) :
    jsGet (jsSet r k v) k' = jsGet r k' := by
  induction r with
  | nil =>
    simp only [jsSet, jsGet]
    rw [if_neg (fun h => hkk h.symm)]
  | cons p rest ih =>
    by_cases hp : p.1 = k
    · have hne : ¬(k = k') := fun h => hkk h.symm
      simp only [jsSet, if_pos hp, jsGet]
      rw [if_neg hne, if_neg (hp ▸ hne)]
    · simp only [jsSet, if_neg hp, jsGet]
      by_cases hp' : p.1 = k'
      · rw [if_pos hp', if_pos hp']
      · rw [if_neg hp', if_neg hp', ih]

theorem recordKeys_buildRecordAux (hs : List String) (rec : StringRecord)
    (i : Nat) (cells : List String) :
    recordKeys (buildRecordAux rec i cells hs) = addKeys (recordKeys rec) hs := by
  induction hs generalizing rec i with
  | nil => rfl
  | cons h rest ih =>
    rw [buildRecordAux, ih, addKeys_cons_mem, recordKeys_jsSet]

theorem recordKeys_buildRecord (headers cells : List String) :
    recordKeys (buildRecord headers cells) = firstDedup headers := by
  rw [buildRecord, recordKeys_buildRecordAux, firstDedup]
  rfl

theorem jsGet_buildRecordAux_notin (hs : List String) (rec : StringRecord)
    (i : Nat) (cells : List String) (k : String) (hk : k ∉ hs) :
    jsGet (buildRecordAux rec i cells hs) k = jsGet rec k := by
  induction hs generalizing rec i with
  | nil => rfl
  | cons h rest ih =>
    rw [buildRecordAux, ih _ _ (fun hmem => hk (List.mem_cons_of_mem h hmem)),
      jsGet_jsSet_other rec h _ k (fun hkh => hk (hkh ▸ List.mem_cons_self h rest))]

theorem jsGet_buildRecordAux (hs : List String) (hnd : hs.Nodup)
    (rec : StringRecord) (i : Nat) (cells : List String) (j : Nat)
    (hj : j < hs.length) :
    jsGet (buildRecordAux rec i cells hs) (hs.getD j "") =
      some (cells.getD (i + j) "") := by
  induction hs generalizing rec i j with
  | nil => simp at hj
  | cons h rest ih =>
    cases j with
    | zero =>
      simp only [List.getD_cons_zero, Nat.add_zero]
      rw [buildRecordAux,
        jsGet_buildRecordAux_notin rest _ (i + 1) cells h (List.nodup_cons.mp hnd).1,
        jsGet_jsSet_self]
    | succ j' =>
      simp only [List.getD_cons_succ]
      rw [buildRecordAux, ih (List.Nodup.of_cons hnd) _ (i + 1) j'
        (by simp only [List.length_cons] at hj; omega)]
      have harith : i + 1 + j' = i + (j' + 1) := by omega
      rw [harith]

theorem jsGet_buildRecord (headers cells : List String) (hnd : headers.Nodup)
    (j : Nat) (hj : j < headers.length) :
    jsGet (buildRecord headers cells) (headers.getD j "") = some (cells.getD j "") := by
  rw [buildRecord, jsGet_buildRecordAux headers hnd [] 0 cells j hj, Nat.zero_add]

/-- **C9.** `parseCsvRecords` returns `[]` whenever the trimmed input has no
comma or fewer than two non-empty lines remain; every returned record's keys
are exactly the (first-occurrence) keys of the processed header row (empty
headers replaced by `column_{i+1}` inside `headersOf`); a cell looked up
under header `j` is the row's cell `j`, so cells missing from a data row
are filled with the empty string; a comma inside a quoted field never splits
the field; and a doubled quote inside a quoted field yields one literal
quote character. -/
theorem C9_parseCsvRecords_spec :
    (∀ csv : String, ',' ∉ jsTrim csv.toList → parseCsvRecords csv = []) ∧
    (∀ csv : String, (csvLines csv).length < 2 → parseCsvRecords csv = []) ∧
    (∀ csv : String, ∀ r ∈ parseCsvRecords csv,
        recordKeys r = firstDedup (headersOf ((csvLines csv).headD []))) ∧
    (∀ headers cells : List String, ∀ j : Nat, headers.Nodup → j < headers.length →
        jsGet (buildRecord headers cells) (headers.getD j "") =
          some (cells.getD j "")) ∧
    (∀ headers cells : List String, ∀ j : Nat, headers.Nodup → j < headers.length →
        cells.length ≤ j →
        jsGet (buildRecord headers cells) (headers.getD j "") = some "") ∧
    (∀ f : List Char, '"' ∉ f →
        splitCsvLine (String.mk ('"' :: (f ++ ['"']))) =
          [String.mk (jsTrim (f.filter (fun c => !(c = '\r'))))]) ∧
    (∀ f g : List Char, '"' ∉ f → '"' ∉ g →
        splitCsvLine (String.mk ('"' :: (f ++ ['"', '"'] ++ g ++ ['"']))) =
          [String.mk (jsTrim ((f ++ '"' :: g).filter (fun c => !(c = '\r'))))]) := by
  refine ⟨?_, ?_, ?_, ?_, ?_, ?_, ?_⟩
  · intro csv hmem
    have hc : (jsTrim csv.toList).contains ',' = false := by
      rw [← Bool.not_eq_true]
      exact fun h => hmem ((contains_iff_mem_str _ _).mp h)
    have hcond : ((jsTrim csv.toList).isEmpty || !((jsTrim csv.toList).contains ',')) = true := by
      rw [hc]
      simp
    simp only [parseCsvRecords]
    rw [if_pos hcond]
  · intro csv hlen
    simp only [parseCsvRecords]
    by_cases h1 : ((jsTrim csv.toList).isEmpty || !((jsTrim csv.toList).contains ',')) = true
    · rw [if_pos h1]
    · rw [if_neg h1, if_pos hlen]
  · intro csv r hr
    simp only [parseCsvRecords] at hr
    by_cases h1 : ((jsTrim csv.toList).isEmpty || !((jsTrim csv.toList).contains ',')) = true
    · rw [if_pos h1] at hr
      exact absurd hr (List.not_mem_nil r)
    · rw [if_neg h1] at hr
      by_cases h2 : (csvLines csv).length < 2
      · rw [if_pos h2] at hr
        exact absurd hr (List.not_mem_nil r)
      · rw [if_neg h2] at hr
        rw [List.mem_filterMap] at hr
        obtain ⟨line, hline, hf⟩ := hr
        by_cases h3 : ((splitCsvLineChars line).map String.mk).length = 0
        · rw [if_pos h3] at hf
          cases hf
        · rw [if_neg h3] at hf
          have hb := Option.some.inj hf
          rw [← hb]
          exact recordKeys_buildRecord _ _
  · intro headers cells j hnd hj
    exact jsGet_buildRecord headers cells hnd j hj
  · intro headers cells j hnd hj hcl
    rw [jsGet_buildRecord headers cells hnd j hj, List.getD_eq_default cells "" hcl]
  · intro f hf
    simp only [splitCsvLine, splitCsvLineChars]
    have htl : (String.mk ('"' :: (f ++ ['"']))).toList = '"' :: (f ++ ['"']) := rfl
    rw [htl, splitCsvAux_open, splitCsvAux_scan f hf [] ['"'],
      splitCsvAux_close _ _ (by simp), splitCsvAux_nil]
    simp
  · intro f g hf hg
    simp only [splitCsvLine, splitCsvLineChars]
    have htl : (String.mk ('"' :: (f ++ ['"', '"'] ++ g ++ ['"']))).toList =
        '"' :: (f ++ ['"', '"'] ++ g ++ ['"']) := rfl
    have hshape : f ++ ['"', '"'] ++ g ++ ['"'] = f ++ ('"' :: '"' :: (g ++ ['"'])) := by
      simp
    rw [htl, splitCsvAux_open, hshape, splitCsvAux_scan f hf [] _, splitCsvAux_escaped,
      splitCsvAux_scan g hg _ ['"'], splitCsvAux_close _ _ (by simp), splitCsvAux_nil]
    have hfield : ([] ++ f ++ ['"']) ++ g = f ++ '"' :: g := by simp
    rw [hfield]
    rfl

/-- Witness for C9 at concrete inputs: a comma-free input and a one-line
input parse to `[]`; the record parsed from `"a,b\n1,2"` has the header
keys; a missing cell reads back as `""`; a quoted comma stays in one field;
a doubled quote becomes a literal quote. -/
theorem C9_parseCsvRecords_spec_witness :
    parseCsvRecords "abc" = [] ∧
    parseCsvRecords "a,b" = [] ∧
    recordKeys [("a", "1"), ("b", "2")] =
      firstDedup (headersOf ((csvLines "a,b\n1,2").headD [])) ∧
    jsGet (buildRecord ["a", "b"] ["1"]) (["a", "b"].getD 1 "") = some "" ∧
    splitCsvLine (String.mk ('"' :: ("x,y".toList ++ ['"']))) =
      [String.mk (jsTrim ("x,y".toList.filter (fun c => !(c = '\r'))))] ∧
    splitCsvLine (String.mk ('"' :: ("a".toList ++ ['"', '"'] ++ "b".toList ++ ['"']))) =
      [String.mk (jsTrim (("a".toList ++ '"' :: "b".toList).filter (fun c => !(c = '\r'))))] := by
  obtain ⟨h1, h2, h3, h4, h5, h6, h7⟩ := C9_parseCsvRecords_spec
  refine ⟨h1 "abc" (by decide), h2 "a,b" (by decide),
    h3 "a,b\n1,2" [("a", "1"), ("b", "2")] ?_,
    h5 ["a", "b"] ["1"] 1 (by decide) (by decide) (by decide),
    h6 "x,y".toList (by decide), h7 "a".toList "b".toList (by decide) (by decide)⟩
  simp [parseCsvRecords, csvLines, headersOf, buildRecord, buildRecordAux, jsSet,
    jsTrim, isJsSpace, normalizeCRLF, splitCsvLineChars, splitCsvAux, List.splitOn]

/-! ### State-store compare-and-swap (C1) -/

/-- **C1.** `transition_stage` succeeds exactly when the addressed stage's
current status equals `from_status`; in every other case it returns `false`
and leaves the whole store — the stage's status and all other fields —
completely unchanged, so an invalid transition such as
`completed → running` without a new attempt never mutates state. -/
theorem C1_transition_stage_cas (s : StateStore) (runId : Nat) (stageName : String)
    (fromSt toSt : StageStatus) (payload : String) :
    ((transition_stage s runId stageName fromSt toSt payload).2 = true ↔
      ∃ r ∈ s.runs, r.id = runId ∧
        ∃ st ∈ r.stages, st.name = stageName ∧ st.status = fromSt) ∧
    ((transition_stage s runId stageName fromSt toSt payload).2 = false →
      (transition_stage s runId stageName fromSt toSt payload).1 = s) := by
  have hiff : (s.runs.any (fun r =>
      decide (r.id = runId) &&
        r.stages.any (fun st => decide (st.name = stageName ∧ st.status = fromSt)))) = true ↔
      ∃ r ∈ s.runs, r.id = runId ∧
        ∃ st ∈ r.stages, st.name = stageName ∧ st.status = fromSt := by
    simp [List.any_eq_true]
  constructor
  · by_cases h : (s.runs.any (fun r =>
        decide (r.id = runId) &&
          r.stages.any (fun st => decide (st.name = stageName ∧ st.status = fromSt)))) = true
    · simp only [transition_stage]
      rw [if_pos h]
      exact ⟨fun _ => hiff.mp h, fun _ => rfl⟩
    · simp only [transition_stage]
      rw [if_neg h]
      exact iff_of_false (by simp) (fun hex => h (hiff.mpr hex))
  · intro h2
    by_cases h : (s.runs.any (fun r =>
        decide (r.id = runId) &&
          r.stages.any (fun st => decide (st.name = stageName ∧ st.status = fromSt)))) = true
    · simp only [transition_stage] at h2
      rw [if_pos h] at h2
      cases h2
    · simp only [transition_stage]
      rw [if_neg h]

/-- Witness for C1 at concrete inputs: on `demoStore` the CAS from
`completed` succeeds, while the invalid `running → completed` attempt (the
scrape stage is not `running`) reports `false` and leaves the store
untouched. -/
theorem C1_transition_stage_cas_witness :
    (transition_stage demoStore 1 "scrape" .completed .running "{}").2 = true ∧
    (transition_stage demoStore 1 "scrape" .running .completed "{}").1 = demoStore := by
  constructor
  · exact (C1_transition_stage_cas demoStore 1 "scrape" .completed .running "{}").1.mpr
      (by decide)
  · exact (C1_transition_stage_cas demoStore 1 "scrape" .running .completed "{}").2
      (by decide)

/-! ### Idempotent dispatch (C2) -/

/-- **C2.** For every idempotency key: a `completed` attempt makes dispatch
skip execution and return the cached result with no state change; a
`running` attempt makes dispatch fail with a conflict and no state change;
and after any dispatch that actually starts an execution, a second dispatch
of the same key is rejected as a conflict without mutating state — so under
the spec's serialized single-writer store, no interleaving of two
dispatches of one key runs the executor twice for the same attempt. -/
theorem C2_dispatch_idempotency (st : IdemStore) (key : String) :
    (∀ a, latestAttempt st key = some a → a.status = .completed →
        dispatch st key = (.skippedCached a.result, st)) ∧
    (∀ a, latestAttempt st key = some a → a.status = .running →
        dispatch st key = (.conflict, st)) ∧
    (∀ n, (dispatch st key).1 = .started n →
        (dispatch (dispatch st key).2 key).1 = .conflict ∧
        (dispatch (dispatch st key).2 key).2 = (dispatch st key).2) := by
  refine ⟨?_, ?_, ?_⟩
  · intro a hla hst
    simp [dispatch, hla, hst]
  · intro a hla hst
    simp [dispatch, hla, hst]
  · intro n h1
    cases hla : latestAttempt st key with
    | none =>
      simp only [dispatch, hla]
      have hfind : latestAttempt
          { attempts := { key := key, counter := 0, status := .running, result := "" } ::
            st.attempts } key =
          some { key := key, counter := 0, status := .running, result := "" } := by
        simp [latestAttempt, List.find?_cons]
      simp [dispatch, hfind]
    | some a =>
      cases hst : a.status with
      | completed => simp [dispatch, hla, hst] at h1
      | running => simp [dispatch, hla, hst] at h1
      | failed =>
        simp only [dispatch, hla, hst]
        have hfind : latestAttempt
            { attempts := { key := key, counter := a.counter + 1, status := .running,
                            result := "" } :: st.attempts } key =
            some { key := key, counter := a.counter + 1, status := .running, result := "" } := by
          simp [latestAttempt, List.find?_cons]
        simp [dispatch, hfind]

/-- Witness for C2 at concrete inputs: with a completed attempt cached the
result is reused; with a running attempt the dispatch conflicts; and after
a fresh start on an empty store the second dispatch conflicts without
mutating the store. -/
theorem C2_dispatch_idempotency_witness :
    dispatch { attempts := [{ key := "1:scrape:t1", counter := 0, status := .completed,
                              result := "ok" }] } "1:scrape:t1" =
      (.skippedCached "ok",
       { attempts := [{ key := "1:scrape:t1", counter := 0, status := .completed,
                        result := "ok" }] }) ∧
    dispatch { attempts := [{ key := "1:scrape:t1", counter := 0, status := .running,
                              result := "" }] } "1:scrape:t1" =
      (.conflict,
       { attempts := [{ key := "1:scrape:t1", counter := 0, status := .running,
                        result := "" }] }) ∧
    (dispatch (dispatch { attempts := [] } "1:scrape:t1").2 "1:scrape:t1").1 = .conflict := by
  refine ⟨?_, ?_, ?_⟩
  · exact (C2_dispatch_idempotency
      { attempts := [{ key := "1:scrape:t1", counter := 0, status := .completed,
                       result := "ok" }] } "1:scrape:t1").1
      { key := "1:scrape:t1", counter := 0, status := .completed, result := "ok" }
      (by decide) (by decide)
  · exact (C2_dispatch_idempotency
      { attempts := [{ key := "1:scrape:t1", counter := 0, status := .running,
                       result := "" }] } "1:scrape:t1").2.1
      { key := "1:scrape:t1", counter := 0, status := .running, result := "" }
      (by decide) (by decide)
  · exact ((C2_dispatch_idempotency { attempts := [] } "1:scrape:t1").2.2 0 (by decide)).1

/-! ### Scheduler lemmas (C3) -/

theorem setStageList_get? (f : SchedStage → SchedStage) (l : List SchedStage) :
    ∀ (i j : Nat),
      (setStageList f i l).get? j = if j = i then (l.get? j).map f else l.get? j := by
  induction l with
  | nil => intro i j; simp [setStageList]
  | cons st rest ih =>
    intro i j
    cases i with
    | zero =>
      cases j with
      | zero => simp [setStageList]
      | succ j' => simp [setStageList]
    | succ i' =>
      cases j with
      | zero => simp [setStageList]
      | succ j' =>
        simp only [setStageList, List.get?_cons_succ, ih i' j']
        by_cases hj : j' = i'
        · simp [hj]
        · simp [hj, fun h => hj (Nat.succ_injective h)]

theorem failedStage_survives (s : Sched) (i : Nat) (st : SchedStage)
    (f : SchedStage → SchedStage) (hg : s.stages.get? i = some st)
    (hrun : st.status = .running) (st' : SchedStage) (hmem : st' ∈ s.stages)
    (hst' : st'.status = .failed) : st' ∈ (setStage s i f).stages := by
  obtain ⟨j, hj⟩ := List.mem_iff_get?.mp hmem
  have hji : j ≠ i := by
    intro hEq
    rw [hEq] at hj
    have hts : st' = st := Option.some.inj (hj.symm.trans hg)
    rw [hts, hrun] at hst'
    cases hst'
  refine List.mem_iff_get?.mpr ⟨j, ?_⟩
  simp only [setStage]
  rw [setStageList_get?, if_neg hji]
  exact hj

theorem schedStep_failedInv (s : Sched) (e : SchedEvent) (hinv : failedInv s) :
    failedInv (schedStep s e).1 ∧
    (s.runStatus = .failed → (schedStep s e).1.runStatus = .failed) := by
  cases e with
  | dispatch i =>
    by_cases hc : canDispatch s i = true
    · simp only [schedStep, if_pos hc]
      constructor
      · intro h
        cases h
      · intro hfail
        exfalso
        unfold canDispatch at hc
        rw [hfail] at hc
        simp at hc
    · simp only [schedStep, if_neg hc]
      exact ⟨hinv, fun h => h⟩
  | stageCompleted i =>
    cases hg : s.stages.get? i with
    | none =>
      simp only [schedStep, hg]
      exact ⟨hinv, fun h => h⟩
    | some st =>
      by_cases hrun : st.status = .running
      · simp only [schedStep, hg, if_pos hrun]
        by_cases hfail : s.runStatus = .failed
        · obtain ⟨st', hmem, hst'⟩ := hinv hfail
          have hmem1 : st' ∈ (setStage s i (fun t => { t with status := .completed })).stages :=
            failedStage_survives s i st _ hg hrun st' hmem hst'
          have hallc :
              allCompleted (setStage s i (fun t => { t with status := .completed })) = false := by
            cases hac :
                allCompleted (setStage s i (fun t => { t with status := .completed })) with
            | false => rfl
            | true =>
              exfalso
              have := (List.all_eq_true.mp hac) st' hmem1
              rw [hst'] at this
              simp at this
          constructor
          · intro _
            exact ⟨st', hmem1, hst'⟩
          · intro _
            simp only [setStage] at hallc ⊢
            rw [hallc]
            exact hfail
        · constructor
          · intro h2
            simp only at h2
            by_cases hac :
                allCompleted (setStage s i (fun t => { t with status := .completed })) = true
            · rw [if_pos hac] at h2
              cases h2
            · rw [if_neg hac] at h2
              exact absurd h2 hfail
          · intro h
            exact absurd h hfail
      · simp only [schedStep, hg, if_neg hrun]
        exact ⟨hinv, fun h => h⟩
  | stageFailedTransient i =>
    cases hg : s.stages.get? i with
    | none =>
      simp only [schedStep, hg]
      exact ⟨hinv, fun h => h⟩
    | some st =>
      by_cases hrun : st.status = .running
      · by_cases hatt : st.attempts < maxAttempts
        · simp only [schedStep, hg, if_pos hrun, if_pos hatt]
          constructor
          · intro h2
            obtain ⟨st', hmem, hst'⟩ := hinv h2
            exact ⟨st', failedStage_survives s i st _ hg hrun st' hmem hst', hst'⟩
          · intro h
            exact h
        · simp only [schedStep, hg, if_pos hrun, if_neg hatt]
          refine ⟨?_, by simp⟩
          intro _
          refine ⟨{ st with status := .failed }, ?_, rfl⟩
          refine List.mem_iff_get?.mpr ⟨i, ?_⟩
          simp only [setStage]
          rw [setStageList_get?, if_pos rfl, hg]
          rfl
      · simp only [schedStep, hg, if_neg hrun]
        exact ⟨hinv, fun h => h⟩
  | stageFailedFatal i =>
    cases hg : s.stages.get? i with
    | none =>
      simp only [schedStep, hg]
      exact ⟨hinv, fun h => h⟩
    | some st =>
      by_cases hrun : st.status = .running
      · simp only [schedStep, hg, if_pos hrun]
        refine ⟨?_, by simp⟩
        intro _
        refine ⟨{ st with status := .failed }, ?_, rfl⟩
        refine List.mem_iff_get?.mpr ⟨i, ?_⟩
        simp only [setStage]
        rw [setStageList_get?, if_pos rfl, hg]
        rfl
      · simp only [schedStep, hg, if_neg hrun]
        exact ⟨hinv, fun h => h⟩

theorem runTrace_failedInv (es : List SchedEvent) :
    ∀ s : Sched, failedInv s →
      failedInv (runTrace s es) ∧
      (s.runStatus = .failed → (runTrace s es).runStatus = .failed) := by
  induction es with
  | nil => exact fun s h => ⟨h, fun h2 => h2⟩
  | cons e es ih =>
    intro s h
    have hstep := schedStep_failedInv s e h
    have htail := ih (schedStep s e).1 hstep.1
    exact ⟨htail.1, fun h2 => htail.2 (hstep.2 h2)⟩

theorem dispatch_rejected_of_failed (s : Sched) (i : Nat)
    (h : s.runStatus = .failed) : (schedStep s (.dispatch i)).2 = false := by
  have hc : canDispatch s i = false := by
    unfold canDispatch
    rw [h]
    simp
  simp [schedStep, hc]

theorem initSched_failedInv : failedInv initSched := by
  intro h
  simp [initSched] at h

/-- **C3.** A stage is dispatched only when the immediately preceding
declared stage is `completed`; a fatal stage failure (`BudgetExceeded`,
non-transient executor error) or a transient failure with retries exhausted
turns the run `failed`; and once a run reached `failed` at any point of an
event trace from the initial state, every later dispatch attempt of any
stage is rejected — no stage of the run is ever dispatched afterwards. -/
theorem C3_failure_halts_pipeline :
    (∀ (s : Sched) (i : Nat), (schedStep s (.dispatch i)).2 = true →
        i = 0 ∨ stageStatusAt s (i - 1) = some .completed) ∧
    (∀ (s : Sched) (i : Nat), (schedStep s (.stageFailedFatal i)).2 = true →
        (schedStep s (.stageFailedFatal i)).1.runStatus = .failed) ∧
    (∀ (s : Sched) (i : Nat) (st : SchedStage), s.stages.get? i = some st →
        maxAttempts ≤ st.attempts → (schedStep s (.stageFailedTransient i)).2 = true →
        (schedStep s (.stageFailedTransient i)).1.runStatus = .failed) ∧
    (∀ (es es' : List SchedEvent) (i : Nat),
        (runTrace initSched es).runStatus = .failed →
        (schedStep (runTrace (runTrace initSched es) es') (.dispatch i)).2 = false) := by
  refine ⟨?_, ?_, ?_, ?_⟩
  · intro s i h
    by_cases hc : canDispatch s i = true
    · unfold canDispatch at hc
      simp only [Bool.and_eq_true, decide_eq_true_eq] at hc
      exact hc.2
    · simp only [schedStep, if_neg hc] at h
      cases h
  · intro s i h
    cases hg : s.stages.get? i with
    | none => simp only [schedStep, hg] at h; cases h
    | some st =>
      by_cases hrun : st.status = .running
      · simp only [schedStep, hg, if_pos hrun]
      · simp only [schedStep, hg, if_neg hrun] at h; cases h
  · intro s i st hg hatt h
    have hnl : ¬(st.attempts < maxAttempts) := Nat.not_lt.mpr hatt
    cases hrun : st.status with
    | running =>
      simp only [schedStep, hg, if_pos hrun, if_neg hnl]
    | pending => simp only [schedStep, hg, hrun] at h ⊢; cases h
    | completed => simp only [schedStep, hg, hrun] at h ⊢; cases h
    | failed => simp only [schedStep, hg, hrun] at h ⊢; cases h
    | skipped => simp only [schedStep, hg, hrun] at h ⊢; cases h
  · intro es es' i hfail
    have h0 := runTrace_failedInv es initSched initSched_failedInv
    have h1 := runTrace_failedInv es' (runTrace initSched es) h0.1
    exact dispatch_rejected_of_failed _ i (h1.2 hfail)

/-- Witness for C3 at concrete inputs: dispatching the first stage of a
fresh run is legal; after the trace `[dispatch 0, fatal failure of 0]` the
run is `failed` and a later attempt to dispatch stage 1 is rejected. -/
theorem C3_failure_halts_pipeline_witness :
    ((0 : Nat) = 0 ∨ stageStatusAt initSched (0 - 1) = some .completed) ∧
    (runTrace initSched [.dispatch 0, .stageFailedFatal 0]).runStatus = .failed ∧
    (schedStep (runTrace (runTrace initSched [.dispatch 0, .stageFailedFatal 0]) [])
        (.dispatch 1)).2 = false := by
  refine ⟨C3_failure_halts_pipeline.1 initSched 0 (by decide), by decide, ?_⟩
  exact C3_failure_halts_pipeline.2.2.2 [.dispatch 0, .stageFailedFatal 0] [] 1 (by decide)

/-! ### Telemetry aggregation lemmas (C4) -/

theorem addToRows_filter_sum (g : StageCostRow → Nat) (amt : Invocation → Nat)
    (hbump : ∀ row inv, g (bumpRow row inv) = g row + amt inv)
    (hnew : ∀ inv, g (newRow inv) = amt inv)
    (inv : Invocation) (rid : Nat) (stg : String) (rows : List StageCostRow) :
    (((addToRows inv rows).filter
        (fun row => decide (row.runId = rid ∧ row.stage = stg))).map g).sum =
      ((rows.filter (fun row => decide (row.runId = rid ∧ row.stage = stg))).map g).sum +
        (if inv.runId = rid ∧ inv.stage = stg then amt inv else 0) := by
  induction rows with
  | nil =>
    simp only [addToRows]
    have hn : (decide ((newRow inv).runId = rid ∧ (newRow inv).stage = stg)) =
        decide (inv.runId = rid ∧ inv.stage = stg) := rfl
    by_cases hc : inv.runId = rid ∧ inv.stage = stg
    · rw [if_pos hc]
      simp only [List.filter_cons, List.filter_nil]
      rw [hn, decide_eq_true hc]
      simp [hnew]
    · rw [if_neg hc]
      simp only [List.filter_cons, List.filter_nil]
      rw [hn, decide_eq_false hc]
      simp
  | cons row rest ih =>
    simp only [addToRows]
    have hbeq : (decide ((bumpRow row inv).runId = rid ∧ (bumpRow row inv).stage = stg)) =
        decide (row.runId = rid ∧ row.stage = stg) := rfl
    by_cases hm : row.runId = inv.runId ∧ row.stage = inv.stage
    · rw [if_pos hm]
      by_cases hp : row.runId = rid ∧ row.stage = stg
      · have hip : inv.runId = rid ∧ inv.stage = stg :=
          ⟨hm.1.symm.trans hp.1, hm.2.symm.trans hp.2⟩
        rw [if_pos hip]
        simp only [List.filter_cons]
        rw [hbeq, decide_eq_true hp]
        simp only [if_true, List.map_cons, List.sum_cons, hbump]
        omega
      · have hip : ¬(inv.runId = rid ∧ inv.stage = stg) := fun hip =>
          hp ⟨hm.1.trans hip.1, hm.2.trans hip.2⟩
        rw [if_neg hip]
        simp only [List.filter_cons]
        rw [hbeq, decide_eq_false hp]
        simp
    · rw [if_neg hm]
      by_cases hp : row.runId = rid ∧ row.stage = stg
      · simp only [List.filter_cons]
        rw [decide_eq_true hp]
        simp only [if_true, List.map_cons, List.sum_cons, ih]
        omega
      · rw [@List.filter_cons_of_neg _ (fun r => decide (r.runId = rid ∧ r.stage = stg))
            row (addToRows inv rest) (by simp [hp]),
          @List.filter_cons_of_neg _ (fun r => decide (r.runId = rid ∧ r.stage = stg))
            row rest (by simp [hp]), ih]

theorem addToRows_keysEq (inv : Invocation) (rows : List StageCostRow) :
    (addToRows inv rows).map (fun r => (r.runId, r.stage)) =
      if (inv.runId, inv.stage) ∈ rows.map (fun r => (r.runId, r.stage)) then
        rows.map (fun r => (r.runId, r.stage))
      else rows.map (fun r => (r.runId, r.stage)) ++ [(inv.runId, inv.stage)] := by
  induction rows with
  | nil => simp [addToRows, newRow]
  | cons row rest ih =>
    simp only [addToRows]
    by_cases hm : row.runId = inv.runId ∧ row.stage = inv.stage
    · have hmem : ((inv.runId, inv.stage) : Nat × String) ∈
          (row :: rest).map (fun r => (r.runId, r.stage)) := by
        simp only [List.map_cons, List.mem_cons]
        exact Or.inl (by rw [hm.1, hm.2])
      rw [if_pos hm, if_pos hmem]
      simp [bumpRow]
    · rw [if_neg hm]
      simp only [List.map_cons, ih]
      by_cases hmem : ((inv.runId, inv.stage) : Nat × String) ∈
          rest.map (fun r => (r.runId, r.stage))
      · rw [if_pos hmem, if_pos (List.mem_cons_of_mem _ hmem)]
      · have hhead : ((inv.runId, inv.stage) : Nat × String) ≠ (row.runId, row.stage) := by
          intro h
          rw [Prod.mk.injEq] at h
          exact hm ⟨h.1.symm, h.2.symm⟩
        have hnm : ¬(((inv.runId, inv.stage) : Nat × String) ∈
            (row.runId, row.stage) :: rest.map (fun r => (r.runId, r.stage))) := by
          simp only [List.mem_cons, not_or]
          exact ⟨hhead, hmem⟩
        rw [if_neg hnm, if_neg hmem]
        rfl

theorem addToRows_nodupKeys (inv : Invocation) (rows : List StageCostRow)
    (h : (rows.map (fun r => (r.runId, r.stage))).Nodup) :
    ((addToRows inv rows).map (fun r => (r.runId, r.stage))).Nodup := by
  rw [addToRows_keysEq]
  by_cases hmem : ((inv.runId, inv.stage) : Nat × String) ∈
      rows.map (fun r => (r.runId, r.stage))
  · rw [if_pos hmem]
    exact h
  · rw [if_neg hmem]
    simp [List.nodup_append, h, hmem]

theorem recordInvocation_new_sum (g : StageCostRow → Nat) (amt : Invocation → Nat)
    (hbump : ∀ row inv, g (bumpRow row inv) = g row + amt inv)
    (hnew : ∀ inv, g (newRow inv) = amt inv)
    (t : Telemetry) (inv : Invocation) (rid : Nat) (stg : String)
    (hbase : ((t.stageCosts.filter
        (fun row => decide (row.runId = rid ∧ row.stage = stg))).map g).sum =
      ((t.modelRuns.filter (fun i => decide (i.runId = rid ∧ i.stage = stg))).map amt).sum) :
    (((addToRows inv t.stageCosts).filter
        (fun row => decide (row.runId = rid ∧ row.stage = stg))).map g).sum =
      (((inv :: t.modelRuns).filter
        (fun i => decide (i.runId = rid ∧ i.stage = stg))).map amt).sum := by
  rw [addToRows_filter_sum g amt hbump hnew inv rid stg t.stageCosts, hbase]
  by_cases hp : inv.runId = rid ∧ inv.stage = stg
  · rw [if_pos hp]
    simp only [List.filter_cons]
    rw [decide_eq_true hp]
    simp only [if_true, List.map_cons, List.sum_cons]
    omega
  · rw [if_neg hp]
    simp only [List.filter_cons]
    rw [decide_eq_false hp]
    simp

theorem recordInvocation_consistent (t : Telemetry) (inv : Invocation)
    (h : telemetryConsistent t) : telemetryConsistent (recordInvocation t inv) := by
  unfold recordInvocation
  by_cases hdup : (t.modelRuns.any (fun i => decide (i.id = inv.id))) = true
  · rw [if_pos hdup]
    exact h
  · rw [if_neg hdup]
    constructor
    · intro rid stg
      have hc := (h.1 rid stg).1
      have hti := (h.1 rid stg).2.1
      have hto := (h.1 rid stg).2.2
      simp only [summaryCost, summaryTokensIn, summaryTokensOut, invocationsFor] at hc hti hto ⊢
      exact ⟨recordInvocation_new_sum StageCostRow.totalCostCents Invocation.costCents
          (fun _ _ => rfl) (fun _ => rfl) t inv rid stg hc,
        recordInvocation_new_sum StageCostRow.tokensInput Invocation.inputTokens
          (fun _ _ => rfl) (fun _ => rfl) t inv rid stg hti,
        recordInvocation_new_sum StageCostRow.tokensOutput Invocation.outputTokens
          (fun _ _ => rfl) (fun _ => rfl) t inv rid stg hto⟩
    · exact addToRows_nodupKeys inv t.stageCosts h.2

theorem emptyTelemetry_consistent : telemetryConsistent emptyTelemetry := by
  constructor
  · intro rid stg
    refine ⟨rfl, rfl, rfl⟩
  · simp [emptyTelemetry]

theorem foldl_recordInvocation_consistent (invs : List Invocation) :
    ∀ t : Telemetry, telemetryConsistent t →
      telemetryConsistent (invs.foldl recordInvocation t) := by
  induction invs with
  | nil => exact fun t h => h
  | cons inv invs ih => exact fun t h => ih _ (recordInvocation_consistent t inv h)

/-- **C4.** After any sequence of invocation recordings from the empty
aggregator state, every (run, stage) Stage Cost Summary total — cost,
input tokens, output tokens — equals the sum over that stage's recorded
Invocation entries, there is at most one summary row per (run, stage), and
replaying an invocation whose id is already recorded changes nothing
(aggregation is idempotent by invocation id). -/
theorem C4_summary_reconciliation :
    (∀ (invs : List Invocation) (runId : Nat) (stage : String),
      summaryCost (invs.foldl recordInvocation emptyTelemetry) runId stage =
        ((invocationsFor (invs.foldl recordInvocation emptyTelemetry) runId stage).map
          Invocation.costCents).sum ∧
      summaryTokensIn (invs.foldl recordInvocation emptyTelemetry) runId stage =
        ((invocationsFor (invs.foldl recordInvocation emptyTelemetry) runId stage).map
          Invocation.inputTokens).sum ∧
      summaryTokensOut (invs.foldl recordInvocation emptyTelemetry) runId stage =
        ((invocationsFor (invs.foldl recordInvocation emptyTelemetry) runId stage).map
          Invocation.outputTokens).sum ∧
      (((invs.foldl recordInvocation emptyTelemetry).stageCosts.map
          (fun r => (r.runId, r.stage))).Nodup)) ∧
    (∀ (t : Telemetry) (inv : Invocation),
      (∃ j ∈ t.modelRuns, j.id = inv.id) → recordInvocation t inv = t) := by
  constructor
  · intro invs runId stage
    have h := foldl_recordInvocation_consistent invs emptyTelemetry emptyTelemetry_consistent
    exact ⟨(h.1 runId stage).1, (h.1 runId stage).2.1, (h.1 runId stage).2.2, h.2⟩
  · intro t inv hex
    have hdup : (t.modelRuns.any (fun i => decide (i.id = inv.id))) = true := by
      rw [List.any_eq_true]
      obtain ⟨j, hj, hid⟩ := hex
      exact ⟨j, hj, by simp [hid]⟩
    rw [recordInvocation, if_pos hdup]

/-- Witness for C4 at a concrete input: replaying the one recorded
invocation (same id) leaves the aggregator state unchanged. -/
theorem C4_summary_reconciliation_witness :
    recordInvocation
        ([{ id := 1, runId := 1, stage := "scrape", promptHash := "h", inputTokens := 5,
            outputTokens := 7, costCents := 30 }].foldl recordInvocation emptyTelemetry)
        { id := 1, runId := 1, stage := "scrape", promptHash := "h", inputTokens := 5,
          outputTokens := 7, costCents := 30 } =
      [{ id := 1, runId := 1, stage := "scrape", promptHash := "h", inputTokens := 5,
         outputTokens := 7, costCents := 30 }].foldl recordInvocation emptyTelemetry := by
  exact C4_summary_reconciliation.2 _ _ (by decide)

/-! ### Budget ledger (C5) -/

/-- **C5.** The ledger rejects a pending sub-operation of estimated cost
`estimate` with `BudgetExceeded` exactly when the projection
`total + estimate` exceeds `1.05 * ceiling`; independently, whenever posted
cumulative spend exceeds the ceiling the stage is marked `failed` with
reason `BudgetExceeded` (the posting itself is still accumulated); in
particular a stage with ceiling 50 that posts cost 55 transitions to
`failed`. -/
theorem C5_budget_ledger :
    (∀ ceiling total estimate : Nat,
        admitOperation ceiling total estimate = false ↔
          ((total : ℚ) + (estimate : ℚ) > 1.05 * (ceiling : ℚ))) ∧
    (∀ (sb : StageBudget) (cost : Nat), sb.ceilingCents < sb.spentCents + cost →
        (postCost sb cost).status = .failed ∧
        (postCost sb cost).failReason = some "BudgetExceeded" ∧
        (postCost sb cost).spentCents = sb.spentCents + cost) ∧
    ((postCost { ceilingCents := 50, spentCents := 0, status := .running,
                 failReason := none } 55).status = .failed ∧
     (postCost { ceilingCents := 50, spentCents := 0, status := .running,
                 failReason := none } 55).failReason = some "BudgetExceeded") := by
  refine ⟨?_, ?_, by decide, by decide⟩
  · intro c t e
    rw [admitOperation]
    rw [show (1.05 : ℚ) = 21 / 20 by norm_num]
    simp only [decide_eq_false_iff_not, Nat.not_le]
    constructor
    · intro h
      have hq : (105 : ℚ) * c < 100 * (t + e) := by exact_mod_cast h
      nlinarith
    · intro h
      have hq : (105 : ℚ) * c < 100 * (t + e) := by nlinarith
      exact_mod_cast hq
  · intro sb cost h
    simp only [postCost]
    rw [if_pos h]
    exact ⟨rfl, rfl, rfl⟩

/-- Witness for C5 at concrete inputs: with ceiling 50 an estimated cost of
55 over spend 0 is rejected, and actually posting 55 fails the stage. -/
theorem C5_budget_ledger_witness :
    admitOperation 50 0 55 = false ∧
    (postCost { ceilingCents := 50, spentCents := 0, status := .running,
                failReason := none } 55).status = .failed := by
  refine ⟨(C5_budget_ledger.1 50 0 55).mpr (by norm_num), ?_⟩
  exact (C5_budget_ledger.2.1
    { ceilingCents := 50, spentCents := 0, status := .running, failReason := none }
    55 (by decide)).1

/-! ### Rate limiter (C6) -/

theorem findWindow_bump (key : String) (wS wE : Nat) (ws : List RateWindow) :
    findWindow key wS wE (bumpWindow key wS wE ws) =
      (findWindow key wS wE ws).map
        (fun w => { w with requestCount := w.requestCount + 1 }) := by
  induction ws with
  | nil => rfl
  | cons w ws ih =>
    by_cases hw : w.apiKey = key ∧ w.windowStart = wS ∧ w.windowEnd = wE
    · have hw' : ({ w with requestCount := w.requestCount + 1 } : RateWindow).apiKey = key ∧
          ({ w with requestCount := w.requestCount + 1 } : RateWindow).windowStart = wS ∧
          ({ w with requestCount := w.requestCount + 1 } : RateWindow).windowEnd = wE := hw
      simp only [bumpWindow, if_pos hw, findWindow, if_pos hw', if_pos hw]
      rfl
    · simp only [bumpWindow, if_neg hw, findWindow, if_neg hw]
      exact ih

theorem request_count (st : RateState) (key : String) (wS wE ceiling : Nat) :
    windowCount (request st key wS wE ceiling).1 key wS wE =
      windowCount st key wS wE + 1 ∧
    ((request st key wS wE ceiling).2 = false ↔
      ceiling < windowCount st key wS wE + 1) := by
  cases hf : findWindow key wS wE st.windows with
  | none =>
    simp only [request, hf]
    constructor
    · simp [windowCount, findWindow, hf]
    · simp only [windowCount, hf, decide_eq_false_iff_not, Nat.not_le]
      try omega
  | some w =>
    simp only [request, hf]
    constructor
    · simp [windowCount, findWindow_bump, hf]
    · simp only [windowCount, hf, decide_eq_false_iff_not, Nat.not_le]
      try omega

theorem requestN_count (key : String) (wS wE ceiling : Nat) :
    ∀ n : Nat, windowCount (requestN key wS wE ceiling n) key wS wE = n := by
  intro n
  induction n with
  | zero => rfl
  | succ n ih =>
    simp only [requestN]
    rw [(request_count (requestN key wS wE ceiling n) key wS wE ceiling).1, ih]

set_option maxRecDepth 100000 in
/-- **C6.** Each request looks up (or lazily creates) the (key, window)
row and increments its counter by exactly one; the request is rejected
exactly when the incremented counter exceeds the ceiling; under the default
ceiling of 60, the 61st request of the same window is rejected while the
first request of the next window succeeds; and the rate-limit check never
touches the run/stage store. -/
theorem C6_rate_limiter :
    (∀ (st : RateState) (key : String) (wS wE ceiling : Nat),
        windowCount (request st key wS wE ceiling).1 key wS wE =
          windowCount st key wS wE + 1 ∧
        ((request st key wS wE ceiling).2 = false ↔
          ceiling < windowCount st key wS wE + 1)) ∧
    (request (requestN "caller" 0 60 rateCeiling 60) "caller" 0 60 rateCeiling).2 = false ∧
    (request (requestN "caller" 0 60 rateCeiling 61) "caller" 60 120 rateCeiling).2 = true ∧
    (∀ (sys : OrchestratorState) (key : String) (wS wE ceiling : Nat),
        (rateLimitCheck sys key wS wE ceiling).1.store = sys.store) := by
  refine ⟨?_, ?_, by decide, ?_⟩
  · intro st key wS wE ceiling
    exact request_count st key wS wE ceiling
  · refine (request_count (requestN "caller" 0 60 rateCeiling 60) "caller" 0 60
      rateCeiling).2.mpr ?_
    rw [requestN_count "caller" 0 60 rateCeiling 60]
    decide
  · intro sys key wS wE ceiling
    rfl

/-! ### Uniqueness invariants (C7) -/

theorem emptyStore_inv : storeInv emptyStore := by
  refine ⟨?_, ?_, ?_⟩
  · intro r hr
    simp [emptyStore] at hr
  · simp [emptyStore]
  · intro r hr
    simp [emptyStore] at hr

theorem create_run_inv (s : StateStore) (owner : Nat) (input : String)
    (budgets : List (String × Nat)) (h : storeInv s) :
    storeInv (create_run s owner input budgets).1 := by
  obtain ⟨hb, hn, hs⟩ := h
  refine ⟨?_, ?_, ?_⟩
  · intro r hr
    simp only [create_run, List.mem_append, List.mem_singleton] at hr
    rcases hr with hr | hr
    · exact Nat.lt_succ_of_lt (hb r hr)
    · rw [hr]
      exact Nat.lt_succ_self _
  · simp only [create_run, List.map_append, List.map_cons, List.map_nil]
    rw [List.nodup_append]
    refine ⟨hn, List.nodup_singleton _, ?_⟩
    intro x hx
    simp only [List.mem_singleton]
    intro hx1
    rcases List.mem_map.mp hx with ⟨r, hr, hid⟩
    have := hb r hr
    rw [← hid] at hx1
    omega
  · intro r hr
    simp only [create_run, List.mem_append, List.mem_singleton] at hr
    rcases hr with hr | hr
    · exact hs r hr
    · rw [hr]
      simp only [List.map_map]
      have : ((fun st => st.name) ∘ newStage) = fun n : String => n := rfl
      rw [this]
      show stagePipeline.map (fun n => n) |>.Nodup
      rw [List.map_id']
      decide

theorem transition_stage_inv (s : StateStore) (rid : Nat) (sn : String)
    (f t : StageStatus) (p : String) (h : storeInv s) :
    storeInv (transition_stage s rid sn f t p).1 := by
  unfold transition_stage
  by_cases hok : (s.runs.any (fun r =>
      decide (r.id = rid) &&
        r.stages.any (fun st => decide (st.name = sn ∧ st.status = f)))) = true
  · rw [if_pos hok]
    obtain ⟨hb, hn, hs⟩ := h
    refine ⟨?_, ?_, ?_⟩
    · intro r hr
      simp only [List.mem_map] at hr
      obtain ⟨r0, hr0, hEq⟩ := hr
      have hid : r.id = r0.id := by
        rw [← hEq]
        by_cases h0 : r0.id = rid <;> simp [h0]
      rw [hid]
      exact hb r0 hr0
    · have hmapid : (s.runs.map (fun r =>
          if r.id = rid then
            { r with stages := r.stages.map (fun st => casStage st sn f t p) }
          else r)).map (fun r => r.id) = s.runs.map (fun r => r.id) := by
        rw [List.map_map]
        apply List.map_congr_left
        intro r0 _
        by_cases h0 : r0.id = rid <;> simp [h0]
      simp only [hmapid]
      exact hn
    · intro r hr
      simp only [List.mem_map] at hr
      obtain ⟨r0, hr0, hEq⟩ := hr
      by_cases h0 : r0.id = rid
      · rw [← hEq, if_pos h0]
        simp only [List.map_map]
        have hnames : ((fun st => st.name) ∘ (fun st => casStage st sn f t p)) =
            fun st : StageState => st.name := by
          funext st
          simp only [Function.comp]
          unfold casStage
          by_cases hc : st.name = sn ∧ st.status = f <;> simp [hc]
        rw [hnames]
        exact hs r0 hr0
      · rw [← hEq, if_neg h0]
        exact hs r0 hr0
  · rw [if_neg hok]
    exact h

theorem applyStoreOps_inv (ops : List StoreOp) : storeInv (applyStoreOps ops) := by
  have hgen : ∀ (ops : List StoreOp) (s : StateStore), storeInv s →
      storeInv (ops.foldl applyStoreOp s) := by
    intro ops
    induction ops with
    | nil => exact fun s h => h
    | cons op ops ih =>
      intro s h
      refine ih _ ?_
      cases op with
      | createRun o i b => exact create_run_inv s o i b h
      | transition rid sn f t p => exact transition_stage_inv s rid sn f t p h
  exact hgen ops emptyStore emptyStore_inv

theorem bumpWindow_keys (key : String) (wS wE : Nat) (ws : List RateWindow) :
    (bumpWindow key wS wE ws).map (fun w => (w.apiKey, w.windowStart, w.windowEnd)) =
      ws.map (fun w => (w.apiKey, w.windowStart, w.windowEnd)) := by
  induction ws with
  | nil => rfl
  | cons w ws ih =>
    by_cases hw : w.apiKey = key ∧ w.windowStart = wS ∧ w.windowEnd = wE
    · simp only [bumpWindow, if_pos hw, List.map_cons]
    · simp only [bumpWindow, if_neg hw, List.map_cons, ih]

theorem findWindow_none_notmem (key : String) (wS wE : Nat) (ws : List RateWindow)
    (h : findWindow key wS wE ws = none) :
    ((key, wS, wE) : String × Nat × Nat) ∉
      ws.map (fun w => (w.apiKey, w.windowStart, w.windowEnd)) := by
  induction ws with
  | nil => simp
  | cons w ws ih =>
    by_cases hw : w.apiKey = key ∧ w.windowStart = wS ∧ w.windowEnd = wE
    · rw [findWindow, if_pos hw] at h
      cases h
    · rw [findWindow, if_neg hw] at h
      simp only [List.map_cons, List.mem_cons, not_or]
      refine ⟨?_, ih h⟩
      intro hEq
      rw [Prod.mk.injEq, Prod.mk.injEq] at hEq
      exact hw ⟨hEq.1.symm, hEq.2.1.symm, hEq.2.2.symm⟩

theorem request_rateInv (st : RateState) (key : String) (wS wE c : Nat)
    (h : rateInv st) : rateInv (request st key wS wE c).1 := by
  cases hf : findWindow key wS wE st.windows with
  | some w =>
    simp only [request, hf]
    show ((bumpWindow key wS wE st.windows).map
      (fun w => (w.apiKey, w.windowStart, w.windowEnd))).Nodup
    rw [bumpWindow_keys]
    exact h
  | none =>
    simp only [request, hf]
    show ((({ apiKey := key, windowStart := wS, windowEnd := wE, requestCount := 1 } :
      RateWindow) :: st.windows).map
        (fun w => (w.apiKey, w.windowStart, w.windowEnd))).Nodup
    simp only [List.map_cons]
    rw [List.nodup_cons]
    exact ⟨findWindow_none_notmem key wS wE st.windows hf, h⟩

theorem applyRateOps_inv (ops : List (String × Nat × Nat × Nat)) :
    rateInv (applyRateOps ops) := by
  have hgen : ∀ (ops : List (String × Nat × Nat × Nat)) (st : RateState), rateInv st →
      rateInv (ops.foldl (fun st p => (request st p.1 p.2.1 p.2.2.1 p.2.2.2).1) st) := by
    intro ops
    induction ops with
    | nil => exact fun st h => h
    | cons op ops ih =>
      intro st h
      exact ih _ (request_rateInv st op.1 op.2.1 op.2.2.1 op.2.2.2 h)
  refine hgen ops { windows := [] } ?_
  show (([] : List RateWindow).map (fun w => (w.apiKey, w.windowStart, w.windowEnd))).Nodup
  simp

/-- **C7.** In every store state reachable by run creation and stage
transitions from the empty store, run identities are unique and the pair
(run, stage name) identifies at most one stage row; and in every rate
state reachable by requests from the empty limiter, the triple
(caller key, window start, window end) identifies at most one window row —
no operation creates a second row for an existing pair. -/
theorem C7_uniqueness_invariants :
    (∀ ops : List StoreOp,
      ((applyStoreOps ops).runs.map (fun r => r.id)).Nodup ∧
      ∀ r ∈ (applyStoreOps ops).runs, (r.stages.map (fun st => st.name)).Nodup) ∧
    (∀ rops : List (String × Nat × Nat × Nat),
      ((applyRateOps rops).windows.map
        (fun w => (w.apiKey, w.windowStart, w.windowEnd))).Nodup) := by
  constructor
  · intro ops
    have h := applyStoreOps_inv ops
    exact ⟨h.2.1, h.2.2⟩
  · exact fun rops => applyRateOps_inv rops

/-- Witness for C7 at concrete inputs: after creating one run, the run ids
and the created run's stage names are duplicate-free, and after one request
the window keys are duplicate-free. -/
theorem C7_uniqueness_invariants_witness :
    ((applyStoreOps [.createRun 7 "{}" [("scrape", 50)]]).runs.map (fun r => r.id)).Nodup ∧
    ((create_run emptyStore 7 "{}" [("scrape", 50)]).2.stages.map
      (fun st => st.name)).Nodup ∧
    ((applyRateOps [("caller", 0, 60, 60)]).windows.map
      (fun w => (w.apiKey, w.windowStart, w.windowEnd))).Nodup := by
  refine ⟨(C7_uniqueness_invariants.1 [.createRun 7 "{}" [("scrape", 50)]]).1,
    (C7_uniqueness_invariants.1 [.createRun 7 "{}" [("scrape", 50)]]).2
      (create_run emptyStore 7 "{}" [("scrape", 50)]).2 (by decide),
    C7_uniqueness_invariants.2 [("caller", 0, 60, 60)]⟩

end Andronoma
